import Mathlib

/-!
Verification of the psx-ledger application core.

A shallow embedding of the TypeScript source in Lean 4: JavaScript numbers
are modeled as exact rationals (`ℚ`), JS strings as `List Char`, and the
`async` control flow of the service layer as explicit state passing.  Each
definition's doc comment cites the source location it is translated from.
-/

namespace PsxLedger

/-! ## JS string primitives used by the source -/

/-- Whitespace test backing `String.prototype.trim` (ASCII fragment). -/
def isWsJS (c : Char) : Bool :=
  c == ' ' || c == '\t' || c == '\n' || c == '\r'

/-- Model of `String.prototype.trim`: drop whitespace at both ends. -/
def jsTrim (s : List Char) : List Char :=
  ((s.dropWhile isWsJS).reverse.dropWhile isWsJS).reverse

/-- Model of `String.prototype.toUpperCase` (ASCII). -/
def jsToUpper (s : List Char) : List Char :=
  s.map Char.toUpper

/-! ## Data model (`src/types.ts`) -/

/-- Transaction type (`src/types.ts`, `Transaction.type`). -/
inductive TxType where
  | BUY
  | SELL
deriving DecidableEq, Repr

/-- A transaction (`src/types.ts`).  The `id` string and ISO `date` string
are opaque to every claim; they are carried as a number and a timestamp. -/
structure Transaction where
  id : ℕ
  type : TxType
  shares : ℚ
  price : ℚ
  date : ℤ
deriving DecidableEq, Repr

/-- A stock position (`src/types.ts`, `StockPosition`).  The per-position
transaction journal is bookkeeping no claim inspects and is not carried. -/
structure StockPosition where
  id : ℕ
  symbol : List Char
  shares : ℚ
  avgBuyPrice : ℚ
  currentPrice : ℚ
deriving DecidableEq, Repr

/-! ## Ledger handlers (`src/App.tsx`) -/

/-- Per-position update of `handleTransaction` (`src/App.tsx` lines 257-277):
a BUY recomputes the weighted average cost, a SELL clamps the share count at
zero and resets the average cost when the count reaches zero. -/
def handleTransactionStock (stock : StockPosition) (t : Transaction) : StockPosition :=
  match t.type with
  | .BUY =>
    let totalCost := stock.shares * stock.avgBuyPrice + t.shares * t.price
    let newShares := stock.shares + t.shares
    { stock with shares := newShares, avgBuyPrice := totalCost / newShares }
  | .SELL =>
    let newShares := max 0 (stock.shares - t.shares)
    { stock with
        shares := newShares,
        avgBuyPrice := if newShares = 0 then 0 else stock.avgBuyPrice }

/-- Liquid-cash update of `handleTransaction` (`src/App.tsx` lines 281-287). -/
def updateLiquidCash (prev : ℚ) (t : Transaction) : ℚ :=
  let amount := t.shares * t.price
  match t.type with
  | .BUY => max 0 (prev - amount)
  | .SELL => prev + amount

/-- `handleTransaction` (`src/App.tsx` lines 252-288): map the per-position
update over the portfolio and adjust the liquid cash. -/
def handleTransaction (portfolio : List StockPosition) (liquidCash : ℚ)
    (stockId : ℕ) (t : Transaction) : List StockPosition × ℚ :=
  (portfolio.map fun stock =>
      if stock.id = stockId then handleTransactionStock stock t else stock,
    updateLiquidCash liquidCash t)

/-- Merge branch of `handleAddStock` (`src/App.tsx` lines 218-228): fold an
incoming lot into an existing position with a weighted average cost. -/
def mergeStock (existing stock : StockPosition) : StockPosition :=
  let totalCost := existing.shares * existing.avgBuyPrice
      + stock.shares * stock.avgBuyPrice
  let totalShares := existing.shares + stock.shares
  { existing with shares := totalShares, avgBuyPrice := totalCost / totalShares }

/-- `handleRefreshPrices` (`src/App.tsx` lines 144-158), with the two reads of
`portfolioRef.current` (before the request and after it resolves) made
explicit.  The returned value is the portfolio write, `none` when no write
happens (early return, error, or the stale-refresh guard of line 151). -/
def handleRefreshPrices (portfolioAtCall : List StockPosition)
    (updateResult : Except Unit (List StockPosition))
    (portfolioAtResume : List StockPosition) : Option (List StockPosition) :=
  if portfolioAtCall = [] then none
  else
    match updateResult with
    | .error _ => none
    | .ok updatedPortfolio =>
      if portfolioAtResume = [] then none else some updatedPortfolio

/-! ## Claim C2: SELL clamps shares at zero and resets the average cost -/

/-- C2: for every position and SELL transaction, the resulting share count is
`max 0 (prior - sold)`, hence never below zero, and whenever it is exactly
zero the average cost is reset to zero (`src/App.tsx` lines 264-267). -/
theorem sell_clamps_shares_and_resets_avg (stock : StockPosition)
    (t : Transaction) (h : t.type = TxType.SELL) :
    (handleTransactionStock stock t).shares = max 0 (stock.shares - t.shares) ∧
    0 ≤ (handleTransactionStock stock t).shares ∧
    ((handleTransactionStock stock t).shares = 0 →
      (handleTransactionStock stock t).avgBuyPrice = 0) := by
  have hs : (handleTransactionStock stock t).shares
      = max 0 (stock.shares - t.shares) := by
    simp [handleTransactionStock, h]
  refine ⟨hs, ?_, ?_⟩
  · rw [hs]
    exact le_max_left 0 _
  · intro hz
    rw [hs] at hz
    simp [handleTransactionStock, h, hz]

/-- Witness for C2 at a concrete oversell: 7 shares sold out of 5. -/
theorem sell_clamps_shares_and_resets_avg_witness :
    (handleTransactionStock ⟨0, [], 5, 10, 12⟩ ⟨1, TxType.SELL, 7, 3, 0⟩).shares
        = max 0 ((5 : ℚ) - 7) ∧
    0 ≤ (handleTransactionStock ⟨0, [], 5, 10, 12⟩ ⟨1, TxType.SELL, 7, 3, 0⟩).shares ∧
    ((handleTransactionStock ⟨0, [], 5, 10, 12⟩ ⟨1, TxType.SELL, 7, 3, 0⟩).shares = 0 →
      (handleTransactionStock ⟨0, [], 5, 10, 12⟩ ⟨1, TxType.SELL, 7, 3, 0⟩).avgBuyPrice = 0) :=
  sell_clamps_shares_and_resets_avg _ _ rfl

/-! ## Claim C10: liquid-cash update on BUY is clamped at zero -/

/-- C10: a BUY recorded through the transaction handler sets the liquid cash
to `max 0 (prior - shares * price)`, so it never becomes negative; a SELL adds
`shares * price` (`src/App.tsx` lines 281-287). -/
theorem liquid_cash_clamped_on_buy (portfolio : List StockPosition)
    (cash : ℚ) (stockId : ℕ) (t : Transaction) :
    (t.type = TxType.BUY →
      (handleTransaction portfolio cash stockId t).2
          = max 0 (cash - t.shares * t.price) ∧
      0 ≤ (handleTransaction portfolio cash stockId t).2) ∧
    (t.type = TxType.SELL →
      (handleTransaction portfolio cash stockId t).2 = cash + t.shares * t.price) := by
  constructor
  · intro hB
    constructor
    · simp [handleTransaction, updateLiquidCash, hB]
    · simp only [handleTransaction, updateLiquidCash, hB]
      exact le_max_left 0 _
  · intro hS
    simp [handleTransaction, updateLiquidCash, hS]

/-- Witness for C10: a buy of 10 shares at 50 against a balance of 100 clamps
the cash at zero instead of going to -400. -/
theorem liquid_cash_clamped_on_buy_witness :
    (handleTransaction [] 100 0 ⟨1, TxType.BUY, 10, 50, 0⟩).2
        = max 0 ((100 : ℚ) - 10 * 50) ∧
    0 ≤ (handleTransaction [] 100 0 ⟨1, TxType.BUY, 10, 50, 0⟩).2 :=
  (liquid_cash_clamped_on_buy [] 100 0 ⟨1, TxType.BUY, 10, 50, 0⟩).1 rfl

/-! ## Claim C9: a stale price refresh is discarded when the portfolio is empty -/

/-- C9: whatever the portfolio was when the refresh started and whatever the
request returned, if the portfolio read on completion is empty the handler
writes nothing back (`src/App.tsx` line 151). -/
theorem stale_refresh_discarded (portfolioAtCall : List StockPosition)
    (updateResult : Except Unit (List StockPosition)) :
    handleRefreshPrices portfolioAtCall updateResult [] = none := by
  unfold handleRefreshPrices
  rcases updateResult with e | updated <;> split <;> simp

/-! ## Claim C1: buy sequences yield a total-cost / total-shares average -/

/-- Total number of shares in a list of buy transactions. -/
def totalBuyShares (buys : List Transaction) : ℚ :=
  (buys.map Transaction.shares).sum

/-- Total cost of a list of buy transactions. -/
def totalBuyCost (buys : List Transaction) : ℚ :=
  (buys.map fun t => t.shares * t.price).sum

/-- Total number of shares in a list of incoming lots for `handleAddStock`. -/
def totalMergeShares (stocks : List StockPosition) : ℚ :=
  (stocks.map StockPosition.shares).sum

/-- Total cost of a list of incoming lots for `handleAddStock`. -/
def totalMergeCost (stocks : List StockPosition) : ℚ :=
  (stocks.map fun s => s.shares * s.avgBuyPrice).sum

lemma totalBuyShares_cons (t : Transaction) (rest : List Transaction) :
    totalBuyShares (t :: rest) = t.shares + totalBuyShares rest := by
  simp [totalBuyShares]

lemma totalBuyCost_cons (t : Transaction) (rest : List Transaction) :
    totalBuyCost (t :: rest) = t.shares * t.price + totalBuyCost rest := by
  simp [totalBuyCost]

lemma totalMergeShares_cons (s : StockPosition) (rest : List StockPosition) :
    totalMergeShares (s :: rest) = s.shares + totalMergeShares rest := by
  simp [totalMergeShares]

lemma totalMergeCost_cons (s : StockPosition) (rest : List StockPosition) :
    totalMergeCost (s :: rest) = s.shares * s.avgBuyPrice + totalMergeCost rest := by
  simp [totalMergeCost]

/-- Fold invariant for a sequence of BUY transactions: the share count
accumulates the bought shares and the product `shares * avgBuyPrice`
accumulates the cost. -/
lemma foldl_buy_invariant (buys : List Transaction)
    (hb : ∀ t ∈ buys, t.type = TxType.BUY ∧ 0 < t.shares) :
    ∀ p : StockPosition, 0 ≤ p.shares → (p.shares = 0 → p.avgBuyPrice = 0) →
      (buys.foldl handleTransactionStock p).shares = p.shares + totalBuyShares buys ∧
      (buys.foldl handleTransactionStock p).shares
          * (buys.foldl handleTransactionStock p).avgBuyPrice
        = p.shares * p.avgBuyPrice + totalBuyCost buys ∧
      0 ≤ (buys.foldl handleTransactionStock p).shares ∧
      ((buys.foldl handleTransactionStock p).shares = 0 →
        (buys.foldl handleTransactionStock p).avgBuyPrice = 0) := by
  induction buys with
  | nil =>
    intro p h0 h1
    refine ⟨by simp [totalBuyShares], by simp [totalBuyCost], h0, h1⟩
  | cons t rest ih =>
    intro p h0 h1
    obtain ⟨ht, hq⟩ := hb t (by simp)
    have hrest : ∀ t' ∈ rest, t'.type = TxType.BUY ∧ 0 < t'.shares :=
      fun t' h' => hb t' (by simp [h'])
    have hfs : (handleTransactionStock p t).shares = p.shares + t.shares := by
      simp [handleTransactionStock, ht]
    have hfa : (handleTransactionStock p t).avgBuyPrice
        = (p.shares * p.avgBuyPrice + t.shares * t.price) / (p.shares + t.shares) := by
      simp [handleTransactionStock, ht]
    have hppos : 0 < (handleTransactionStock p t).shares := by
      rw [hfs]; linarith
    have hpa : (handleTransactionStock p t).shares
        * (handleTransactionStock p t).avgBuyPrice
        = p.shares * p.avgBuyPrice + t.shares * t.price := by
      have hne : p.shares + t.shares ≠ 0 := ne_of_gt (by linarith)
      rw [hfs, hfa, mul_comm, div_mul_cancel₀ _ hne]
    obtain ⟨i1, i2, i3, i4⟩ :=
      ih hrest (handleTransactionStock p t) hppos.le (fun h => absurd h hppos.ne')
    refine ⟨?_, ?_, ?_, ?_⟩
    · rw [List.foldl_cons, i1, hfs, totalBuyShares_cons]; ring
    · rw [List.foldl_cons, i2, hpa, totalBuyCost_cons]; ring
    · rw [List.foldl_cons]; exact i3
    · rw [List.foldl_cons]; exact i4

/-- Fold invariant for the merge branch of `handleAddStock`, mirroring
`foldl_buy_invariant`. -/
lemma foldl_merge_invariant (stocks : List StockPosition)
    (hs : ∀ s ∈ stocks, 0 < s.shares) :
    ∀ p : StockPosition, 0 ≤ p.shares → (p.shares = 0 → p.avgBuyPrice = 0) →
      (stocks.foldl mergeStock p).shares = p.shares + totalMergeShares stocks ∧
      (stocks.foldl mergeStock p).shares * (stocks.foldl mergeStock p).avgBuyPrice
        = p.shares * p.avgBuyPrice + totalMergeCost stocks ∧
      0 ≤ (stocks.foldl mergeStock p).shares ∧
      ((stocks.foldl mergeStock p).shares = 0 →
        (stocks.foldl mergeStock p).avgBuyPrice = 0) := by
  induction stocks with
  | nil =>
    intro p h0 h1
    refine ⟨by simp [totalMergeShares], by simp [totalMergeCost], h0, h1⟩
  | cons s rest ih =>
    intro p h0 h1
    have hq := hs s (by simp)
    have hrest : ∀ s' ∈ rest, 0 < s'.shares := fun s' h' => hs s' (by simp [h'])
    have hfs : (mergeStock p s).shares = p.shares + s.shares := by
      simp [mergeStock]
    have hfa : (mergeStock p s).avgBuyPrice
        = (p.shares * p.avgBuyPrice + s.shares * s.avgBuyPrice)
          / (p.shares + s.shares) := by
      simp [mergeStock]
    have hppos : 0 < (mergeStock p s).shares := by
      rw [hfs]; linarith
    have hpa : (mergeStock p s).shares * (mergeStock p s).avgBuyPrice
        = p.shares * p.avgBuyPrice + s.shares * s.avgBuyPrice := by
      have hne : p.shares + s.shares ≠ 0 := ne_of_gt (by linarith)
      rw [hfs, hfa, mul_comm, div_mul_cancel₀ _ hne]
    obtain ⟨i1, i2, i3, i4⟩ :=
      ih hrest (mergeStock p s) hppos.le (fun h => absurd h hppos.ne')
    refine ⟨?_, ?_, ?_, ?_⟩
    · rw [List.foldl_cons, i1, hfs, totalMergeShares_cons]; ring
    · rw [List.foldl_cons, i2, hpa, totalMergeCost_cons]; ring
    · rw [List.foldl_cons]; exact i3
    · rw [List.foldl_cons]; exact i4

/-- C1: starting from a fresh position, any sequence of BUY transactions
applied through the transaction handler yields an average cost equal to the
total cost of the buys divided by their total share count (and a share count
equal to that total); the same holds for lots merged through the add-stock
handler (`src/App.tsx` lines 252-288 and 203-244). -/
theorem buy_sequence_average_is_total_cost_over_total_shares
    (buys : List Transaction) (hb : ∀ t ∈ buys, t.type = TxType.BUY ∧ 0 < t.shares)
    (p0 : StockPosition) (h0s : p0.shares = 0) (h0a : p0.avgBuyPrice = 0)
    (stocks : List StockPosition) (hs : ∀ s ∈ stocks, 0 < s.shares)
    (q0 : StockPosition) (hq0s : q0.shares = 0) (hq0a : q0.avgBuyPrice = 0) :
    (buys.foldl handleTransactionStock p0).avgBuyPrice
        = totalBuyCost buys / totalBuyShares buys ∧
    (buys.foldl handleTransactionStock p0).shares = totalBuyShares buys ∧
    (stocks.foldl mergeStock q0).avgBuyPrice
        = totalMergeCost stocks / totalMergeShares stocks ∧
    (stocks.foldl mergeStock q0).shares = totalMergeShares stocks := by
  obtain ⟨b1, b2, b3, b4⟩ :=
    foldl_buy_invariant buys hb p0 (by rw [h0s]) (fun _ => h0a)
  obtain ⟨m1, m2, m3, m4⟩ :=
    foldl_merge_invariant stocks hs q0 (by rw [hq0s]) (fun _ => hq0a)
  simp only [h0s, h0a, zero_mul, mul_zero, zero_add] at b1 b2
  simp only [hq0s, hq0a, zero_mul, mul_zero, zero_add] at m1 m2
  have hbS : (buys.foldl handleTransactionStock p0).shares = totalBuyShares buys := b1
  have hmS : (stocks.foldl mergeStock q0).shares = totalMergeShares stocks := m1
  have hbC : (buys.foldl handleTransactionStock p0).shares
      * (buys.foldl handleTransactionStock p0).avgBuyPrice = totalBuyCost buys := b2
  have hmC : (stocks.foldl mergeStock q0).shares
      * (stocks.foldl mergeStock q0).avgBuyPrice = totalMergeCost stocks := m2
  refine ⟨?_, hbS, ?_, hmS⟩
  · by_cases hz : (buys.foldl handleTransactionStock p0).shares = 0
    · rw [b4 hz, ← hbC, hz, ← hbS, hz]
      simp
    · rw [← hbC, ← hbS]
      field_simp
  · by_cases hz : (stocks.foldl mergeStock q0).shares = 0
    · rw [m4 hz, ← hmC, hz, ← hmS, hz]
      simp
    · rw [← hmC, ← hmS]
      field_simp

/-- Witness for C1: two buys (10 shares at 100, then 10 shares at 200) give an
average cost of 3000 / 20 = 150, through either path. -/
theorem buy_sequence_average_witness :
    (([⟨1, TxType.BUY, 10, 100, 0⟩, ⟨2, TxType.BUY, 10, 200, 0⟩]
        : List Transaction).foldl handleTransactionStock
          ⟨0, [], 0, 0, 0⟩).avgBuyPrice
      = totalBuyCost [⟨1, TxType.BUY, 10, 100, 0⟩, ⟨2, TxType.BUY, 10, 200, 0⟩]
        / totalBuyShares [⟨1, TxType.BUY, 10, 100, 0⟩, ⟨2, TxType.BUY, 10, 200, 0⟩] ∧
    (([⟨1, TxType.BUY, 10, 100, 0⟩, ⟨2, TxType.BUY, 10, 200, 0⟩]
        : List Transaction).foldl handleTransactionStock
          ⟨0, [], 0, 0, 0⟩).shares
      = totalBuyShares [⟨1, TxType.BUY, 10, 100, 0⟩, ⟨2, TxType.BUY, 10, 200, 0⟩] ∧
    (([⟨3, "A".data, 10, 100, 100⟩, ⟨4, "A".data, 10, 200, 200⟩]
        : List StockPosition).foldl mergeStock ⟨0, "A".data, 0, 0, 0⟩).avgBuyPrice
      = totalMergeCost [⟨3, "A".data, 10, 100, 100⟩, ⟨4, "A".data, 10, 200, 200⟩]
        / totalMergeShares [⟨3, "A".data, 10, 100, 100⟩, ⟨4, "A".data, 10, 200, 200⟩] ∧
    (([⟨3, "A".data, 10, 100, 100⟩, ⟨4, "A".data, 10, 200, 200⟩]
        : List StockPosition).foldl mergeStock ⟨0, "A".data, 0, 0, 0⟩).shares
      = totalMergeShares [⟨3, "A".data, 10, 100, 100⟩, ⟨4, "A".data, 10, 200, 200⟩] :=
  buy_sequence_average_is_total_cost_over_total_shares
    _ (by intro t h; fin_cases h <;> exact ⟨rfl, by norm_num⟩)
    _ rfl rfl
    _ (by intro s h; fin_cases h <;> norm_num)
    _ rfl rfl

/-! ## Gemini service (`src/services/geminiService.ts`) -/

/-- Pattern match at the head of a string. -/
def matchHead : List Char → List Char → Bool
  | [], _ => true
  | _ :: _, [] => false
  | p :: ps, c :: cs => p == c && matchHead ps cs

/-- Substring test, backing `String.prototype.includes`. -/
def containsSub (pat : List Char) : List Char → Bool
  | [] => pat.isEmpty
  | c :: cs => matchHead pat (c :: cs) || containsSub pat cs

/-- Model of `String.prototype.replace` with a global plain pattern and the
empty replacement: remove every occurrence, scanning left to right. -/
def stripPat (pat : List Char) (s : List Char) : List Char :=
  match pat, s with
  | _, [] => []
  | [], rest => rest
  | p :: ps, c :: cs =>
    if matchHead (p :: ps) (c :: cs) then stripPat (p :: ps) (cs.drop ps.length)
    else c :: stripPat (p :: ps) cs
termination_by s.length
decreasing_by
  · simp only [List.length_cons, List.length_drop]
    omega
  · simp only [List.length_cons]
    omega

/-- Model of `String.prototype.indexOf` for a single character. -/
def jsIndexOfChar (c : Char) : List Char → Option ℕ
  | [] => none
  | x :: xs => if x = c then some 0 else (jsIndexOfChar c xs).map (· + 1)

/-- Model of `String.prototype.lastIndexOf` for a single character. -/
def jsLastIndexOfChar (c : Char) (s : List Char) : Option ℕ :=
  (jsIndexOfChar c s.reverse).map (fun i => s.length - 1 - i)

/-- Model of `String.prototype.substring` (clamps and swaps its arguments). -/
def jsSubstring (s : List Char) (a b : ℕ) : List Char :=
  (s.take (max a b)).drop (min a b)

/-- The markdown fence marker removed first at line 52 of the service. -/
abbrev jsonFencePat : List Char := ['`', '`', '`', 'j', 's', 'o', 'n']

/-- The markdown fence marker removed second at line 52 of the service. -/
abbrev fencePat : List Char := ['`', '`', '`']

/-- Response-text cleanup inside `fetchGeminiResponse`
(`src/services/geminiService.ts` lines 52-59): strip code-fence markers, trim,
then cut from the first opening brace to the last closing brace. -/
def cleanResponseText (text : List Char) : List Char :=
  let t1 := stripPat jsonFencePat text
  let t2 := stripPat fencePat t1
  let t3 := jsTrim t2
  match jsIndexOfChar '\x7b' t3, jsLastIndexOfChar '\x7d' t3 with
  | some firstBrace, some lastBrace => jsSubstring t3 firstBrace (lastBrace + 1)
  | _, _ => t3

/-- A thrown JS error as the catch block of the service sees it: an optional
HTTP status and a message string. -/
structure JsError where
  status : Option ℕ
  message : List Char
deriving DecidableEq, Repr

/-- Outcome of one `ai.models.generateContent` call: either a thrown error or
a response whose `.text` may be absent. -/
inductive ApiResult where
  | throwErr : JsError → ApiResult
  | respond : Option (List Char) → ApiResult
deriving DecidableEq, Repr

/-- Error message thrown at line 69 when `JSON.parse` fails. -/
def invalidJsonMessage : List Char := "Invalid JSON format received from AI".data

/-- Error message of the unreachable final throw at line 96. -/
def exhaustedMessage : List Char := "Gemini API request failed after multiple retries".data

/-- Error message thrown by `getAiClient` (line 10) when no key is set. -/
def apiKeyMessage : List Char := "API Key not found".data

/-- Rate-limit / quota detection (`src/services/geminiService.ts`
lines 77-80). -/
def isRateLimitError (e : JsError) : Bool :=
  e.status == some 429
    || containsSub "429".data e.message
    || containsSub "quota".data e.message
    || containsSub "RESOURCE_EXHAUSTED".data e.message

/-- Line 49 of the service: `response.text || "\x7b\x7d"` (absent or empty text
falls back to an empty JSON object). -/
def responseTextOrDefault : Option (List Char) → List Char
  | none => "\x7b\x7d".data
  | some t => if t = [] then "\x7b\x7d".data else t

/-- One iteration of the try block of `fetchGeminiResponse` (lines 39-72):
call the API, clean the text, parse it.  `JSON.parse` is a host builtin and is
a parameter `parse`; a parse failure becomes the thrown invalid-JSON error. -/
def attemptOutcome {α : Type} (parse : List Char → Option α) (api : ApiResult) :
    Except JsError α :=
  match api with
  | .throwErr e => .error e
  | .respond t =>
    match parse (cleanResponseText (responseTextOrDefault t)) with
    | some d => .ok d
    | none => .error ⟨none, invalidJsonMessage⟩

/-- Observable trace of one `fetchGeminiResponse` run: its result, the number
of API calls made, and the backoff waits (in ms) taken, in order. -/
structure FetchTrace (α : Type) where
  result : Except JsError α
  calls : ℕ
  waits : List ℕ

/-- `maxAttempts` of `fetchGeminiResponse` (line 22). -/
def maxAttempts : ℕ := 3

/-- The `while (attempts < maxAttempts)` loop of `fetchGeminiResponse`
(lines 38-95).  `attempts` only ever increases, so the loop is translated
with the exact fuel `remaining = maxAttempts - attempts`; the fuel-0 case is
the unreachable final throw of line 96.  `env a` is the API outcome of the
call made when `attempts = a`. -/
def fetchLoop {α : Type} (parse : List Char → Option α) (env : ℕ → ApiResult) :
    ℕ → ℕ → ℕ → List ℕ → FetchTrace α
  | 0, _, calls, waits => ⟨.error ⟨none, exhaustedMessage⟩, calls, waits⟩
  | remaining + 1, attempts, calls, waits =>
    match attemptOutcome parse (env attempts) with
    | .ok d => ⟨.ok d, calls + 1, waits⟩
    | .error e =>
      if isRateLimitError e = true ∧ attempts + 1 < maxAttempts then
        fetchLoop parse env remaining (attempts + 1) (calls + 1)
          (waits ++ [3000 * (attempts + 1)])
      else if attempts + 1 = maxAttempts then ⟨.error e, calls + 1, waits⟩
      else fetchLoop parse env remaining (attempts + 1) (calls + 1) waits

/-- `fetchGeminiResponse` (`src/services/geminiService.ts` lines 19-97):
`getAiClient` throws when no API key is configured, otherwise the retry loop
runs starting at `attempts = 0`. -/
def fetchGeminiResponse {α : Type} (parse : List Char → Option α)
    (hasApiKey : Bool) (env : ℕ → ApiResult) : FetchTrace α :=
  if hasApiKey then fetchLoop parse env maxAttempts 0 0 []
  else ⟨.error ⟨none, apiKeyMessage⟩, 0, []⟩

lemma fetchLoop_succ {α : Type} (parse : List Char → Option α)
    (env : ℕ → ApiResult) (r a c : ℕ) (w : List ℕ) :
    fetchLoop parse env (r + 1) a c w
      = match attemptOutcome parse (env a) with
        | .ok d => ⟨.ok d, c + 1, w⟩
        | .error e =>
          if isRateLimitError e = true ∧ a + 1 < maxAttempts then
            fetchLoop parse env r (a + 1) (c + 1) (w ++ [3000 * (a + 1)])
          else if a + 1 = maxAttempts then ⟨.error e, c + 1, w⟩
          else fetchLoop parse env r (a + 1) (c + 1) w := rfl

/-- Complete case analysis of a `fetchGeminiResponse` run with an API key:
it ends at the first successful attempt (at most the third), or fails with
the third attempt's error; a backoff wait is inserted exactly after each
rate-limited failure. -/
lemma fetch_case_analysis {α : Type} (parse : List Char → Option α)
    (env : ℕ → ApiResult) :
    (∃ d, attemptOutcome parse (env 0) = .ok d ∧
      fetchGeminiResponse parse true env = ⟨.ok d, 1, []⟩) ∨
    (∃ e0 d, attemptOutcome parse (env 0) = .error e0 ∧
      attemptOutcome parse (env 1) = .ok d ∧
      fetchGeminiResponse parse true env
        = ⟨.ok d, 2, if isRateLimitError e0 then [3000] else []⟩) ∨
    (∃ e0 e1 d, attemptOutcome parse (env 0) = .error e0 ∧
      attemptOutcome parse (env 1) = .error e1 ∧
      attemptOutcome parse (env 2) = .ok d ∧
      fetchGeminiResponse parse true env
        = ⟨.ok d, 3, (if isRateLimitError e0 then [3000] else [])
            ++ (if isRateLimitError e1 then [6000] else [])⟩) ∨
    (∃ e0 e1 e2, attemptOutcome parse (env 0) = .error e0 ∧
      attemptOutcome parse (env 1) = .error e1 ∧
      attemptOutcome parse (env 2) = .error e2 ∧
      fetchGeminiResponse parse true env
        = ⟨.error e2, 3, (if isRateLimitError e0 then [3000] else [])
            ++ (if isRateLimitError e1 then [6000] else [])⟩) := by
  have hF : fetchGeminiResponse parse true env = fetchLoop parse env 3 0 0 [] := by
    simp [fetchGeminiResponse, maxAttempts]
  have u3 : fetchLoop parse env 3 0 0 []
      = match attemptOutcome parse (env 0) with
        | .ok d => ⟨.ok d, 1, []⟩
        | .error e =>
          if isRateLimitError e = true ∧ 0 + 1 < maxAttempts then
            fetchLoop parse env 2 (0 + 1) (0 + 1) ([] ++ [3000 * (0 + 1)])
          else if 0 + 1 = maxAttempts then ⟨.error e, 0 + 1, []⟩
          else fetchLoop parse env 2 (0 + 1) (0 + 1) [] :=
    fetchLoop_succ parse env 2 0 0 []
  rcases h0 : attemptOutcome parse (env 0) with e0 | d0
  · -- first attempt failed
    have s0 : fetchGeminiResponse parse true env
        = fetchLoop parse env 2 1 1 (if isRateLimitError e0 then [3000] else []) := by
      rw [hF, u3, h0]
      by_cases hr : isRateLimitError e0 = true <;>
        simp [hr, maxAttempts]
    have u2 : ∀ w, fetchLoop parse env 2 1 1 w
        = match attemptOutcome parse (env 1) with
          | .ok d => ⟨.ok d, 2, w⟩
          | .error e =>
            if isRateLimitError e = true ∧ 1 + 1 < maxAttempts then
              fetchLoop parse env 1 (1 + 1) (1 + 1) (w ++ [3000 * (1 + 1)])
            else if 1 + 1 = maxAttempts then ⟨.error e, 1 + 1, w⟩
            else fetchLoop parse env 1 (1 + 1) (1 + 1) w :=
      fun w => fetchLoop_succ parse env 1 1 1 w
    rcases h1 : attemptOutcome parse (env 1) with e1 | d1
    · -- second attempt failed
      have s1 : fetchGeminiResponse parse true env
          = fetchLoop parse env 1 2 2 ((if isRateLimitError e0 then [3000] else [])
              ++ (if isRateLimitError e1 then [6000] else [])) := by
        rw [s0, u2, h1]
        by_cases hr : isRateLimitError e1 = true <;>
          simp [hr, maxAttempts]
      have u1 : ∀ w, fetchLoop parse env 1 2 2 w
          = match attemptOutcome parse (env 2) with
            | .ok d => ⟨.ok d, 3, w⟩
            | .error e =>
              if isRateLimitError e = true ∧ 2 + 1 < maxAttempts then
                fetchLoop parse env 0 (2 + 1) (2 + 1) (w ++ [3000 * (2 + 1)])
              else if 2 + 1 = maxAttempts then ⟨.error e, 2 + 1, w⟩
              else fetchLoop parse env 0 (2 + 1) (2 + 1) w :=
        fun w => fetchLoop_succ parse env 0 2 2 w
      rcases h2 : attemptOutcome parse (env 2) with e2 | d2
      · refine Or.inr (Or.inr (Or.inr ⟨e0, e1, e2, rfl, rfl, rfl, ?_⟩))
        rw [s1, u1, h2]
        simp [maxAttempts]
      · refine Or.inr (Or.inr (Or.inl ⟨e0, e1, d2, rfl, rfl, rfl, ?_⟩))
        rw [s1, u1, h2]
    · refine Or.inr (Or.inl ⟨e0, d1, rfl, rfl, ?_⟩)
      rw [s0, u2, h1]
  · exact Or.inl ⟨d0, rfl, by rw [hF, u3, h0]⟩

/-! ## Claim C3: at most three attempts; error only after the third fails -/

/-- C3: with an API key configured, the AI-call wrapper makes at most 3 API
calls; it returns an error only when all three attempts failed (and then it is
the third attempt's error); and the first successful attempt returns its
parsed result immediately (`src/services/geminiService.ts` lines 19-97). -/
theorem fetch_at_most_three_attempts {α : Type} (parse : List Char → Option α)
    (env : ℕ → ApiResult) (hasApiKey : Bool) (hkey : hasApiKey = true) :
    (fetchGeminiResponse parse hasApiKey env).calls ≤ 3 ∧
    (∀ e, (fetchGeminiResponse parse hasApiKey env).result = .error e →
      (fetchGeminiResponse parse hasApiKey env).calls = 3 ∧
      attemptOutcome parse (env 2) = .error e ∧
      ∀ k < 3, ∃ e', attemptOutcome parse (env k) = .error e') ∧
    (∀ k, k < 3 → (∀ i, i < k → ∃ e', attemptOutcome parse (env i) = .error e') →
      ∀ d, attemptOutcome parse (env k) = .ok d →
        (fetchGeminiResponse parse hasApiKey env).result = .ok d ∧
        (fetchGeminiResponse parse hasApiKey env).calls = k + 1) := by
  subst hkey
  rcases fetch_case_analysis parse env with
    ⟨d, h0, hR⟩ | ⟨e0, d, h0, h1, hR⟩ | ⟨e0, e1, d, h0, h1, h2, hR⟩ |
    ⟨e0, e1, e2, h0, h1, h2, hR⟩ <;>
      rw [hR]
  · refine ⟨by norm_num, ?_, ?_⟩
    · intro e he
      simp at he
    · intro k hk hpri d' hd'
      interval_cases k
      · rw [h0] at hd'
        cases hd'
        exact ⟨rfl, rfl⟩
      · obtain ⟨e', he'⟩ := hpri 0 (by omega)
        rw [h0] at he'
        cases he'
      · obtain ⟨e', he'⟩ := hpri 0 (by omega)
        rw [h0] at he'
        cases he'
  · refine ⟨by norm_num, ?_, ?_⟩
    · intro e he
      simp at he
    · intro k hk hpri d' hd'
      interval_cases k
      · rw [h0] at hd'
        cases hd'
      · rw [h1] at hd'
        cases hd'
        exact ⟨rfl, rfl⟩
      · obtain ⟨e', he'⟩ := hpri 1 (by omega)
        rw [h1] at he'
        cases he'
  · refine ⟨by norm_num, ?_, ?_⟩
    · intro e he
      simp at he
    · intro k hk hpri d' hd'
      interval_cases k
      · rw [h0] at hd'
        cases hd'
      · rw [h1] at hd'
        cases hd'
      · rw [h2] at hd'
        cases hd'
        exact ⟨rfl, rfl⟩
  · refine ⟨by norm_num, ?_, ?_⟩
    · intro e he
      simp only [Except.error.injEq] at he
      subst he
      refine ⟨rfl, h2, ?_⟩
      intro k hk
      interval_cases k
      · exact ⟨e0, h0⟩
      · exact ⟨e1, h1⟩
      · exact ⟨e2, h2⟩
    · intro k hk hpri d' hd'
      interval_cases k
      · rw [h0] at hd'
        cases hd'
      · rw [h1] at hd'
        cases hd'
      · rw [h2] at hd'
        cases hd'

/-- Witness for C3: a run whose first attempt succeeds returns after one call. -/
theorem fetch_at_most_three_attempts_witness :
    (fetchGeminiResponse (fun _ => some 0) true (fun _ => ApiResult.respond none)).result
        = Except.ok 0 ∧
    (fetchGeminiResponse (fun _ => some 0) true (fun _ => ApiResult.respond none)).calls
        = 0 + 1 :=
  (fetch_at_most_three_attempts (fun _ => some 0) (fun _ => ApiResult.respond none)
      true rfl).2.2 0 (by norm_num) (fun i hi => absurd hi (by omega)) 0 rfl

/-! ## Claim C4: which errors are retried, and with which backoff -/

/-- A thrown error that is not a rate-limit/quota signal (HTTP 500,
message "Internal error"). -/
def cexError : JsError := ⟨some 500, "Internal error".data⟩

/-- Environment whose first API call throws `cexError` and whose later calls
respond normally. -/
def cexEnv : ℕ → ApiResult :=
  fun k => if k = 0 then ApiResult.throwErr cexError else ApiResult.respond none

/-- A parse function accepting any cleaned text (stands for `JSON.parse` on a
well-formed response). -/
def cexParse : List Char → Option ℕ := fun _ => some 42

/-- Counterexample to C4 as stated: the first attempt fails with an error that
is not a rate-limit signal, yet the wrapper does not propagate it — it retries
(a second API call is made, with no backoff wait) and returns the second
attempt's parsed result. -/
theorem nonratelimit_error_retried_counterexample :
    isRateLimitError cexError = false ∧
    attemptOutcome cexParse (cexEnv 0) = .error cexError ∧
    (fetchGeminiResponse cexParse true cexEnv).result = .ok 42 ∧
    (fetchGeminiResponse cexParse true cexEnv).calls = 2 ∧
    (fetchGeminiResponse cexParse true cexEnv).waits = [] :=
  ⟨rfl, rfl, rfl, rfl, rfl⟩

/-- C4 amended: a non-rate-limit error is retried (with no backoff wait) while
attempts remain and propagates only when the final (third) attempt also fails;
a rate-limit failure of the first attempt inserts a backoff wait of
`1 × 3000` ms before the retry (`src/services/geminiService.ts` lines 73-94). -/
theorem nonratelimit_errors_retried_while_attempts_remain {α : Type}
    (parse : List Char → Option α) (env : ℕ → ApiResult) (e0 : JsError)
    (h0 : attemptOutcome parse (env 0) = .error e0) :
    (isRateLimitError e0 = false →
      2 ≤ (fetchGeminiResponse parse true env).calls ∧
      (∀ d, attemptOutcome parse (env 1) = .ok d →
        (fetchGeminiResponse parse true env).result = .ok d ∧
        (fetchGeminiResponse parse true env).waits = []) ∧
      (∀ e1 e2, attemptOutcome parse (env 1) = .error e1 →
        attemptOutcome parse (env 2) = .error e2 →
        (fetchGeminiResponse parse true env).result = .error e2)) ∧
    (isRateLimitError e0 = true →
      ∀ d, attemptOutcome parse (env 1) = .ok d →
        (fetchGeminiResponse parse true env).result = .ok d ∧
        (fetchGeminiResponse parse true env).waits = [3000]) := by
  rcases fetch_case_analysis parse env with
    ⟨d, g0, hR⟩ | ⟨f0, d, g0, g1, hR⟩ | ⟨f0, f1, d, g0, g1, g2, hR⟩ |
    ⟨f0, f1, f2, g0, g1, g2, hR⟩
  · rw [h0] at g0
    cases g0
  · rw [h0] at g0
    cases g0
    constructor
    · intro hnr
      rw [hR]
      refine ⟨by norm_num, ?_, ?_⟩
      · intro d' hd'
        rw [g1] at hd'
        cases hd'
        simp [hnr]
      · intro e1 e2 he1 he2
        rw [g1] at he1
        cases he1
    · intro hr d' hd'
      rw [g1] at hd'
      cases hd'
      rw [hR]
      simp [hr]
  · rw [h0] at g0
    cases g0
    constructor
    · intro hnr
      rw [hR]
      refine ⟨by norm_num, ?_, ?_⟩
      · intro d' hd'
        rw [g1] at hd'
        cases hd'
      · intro e1' e2' he1 he2
        rw [g2] at he2
        cases he2
    · intro hr d' hd'
      rw [g1] at hd'
      cases hd'
  · rw [h0] at g0
    cases g0
    constructor
    · intro hnr
      rw [hR]
      refine ⟨by norm_num, ?_, ?_⟩
      · intro d' hd'
        rw [g1] at hd'
        cases hd'
      · intro e1' e2' he1 he2
        rw [g2] at he2
        cases he2
        rfl
    · intro hr d' hd'
      rw [g1] at hd'
      cases hd'

/-- Witness for the amended C4 at the concrete counterexample run. -/
theorem nonratelimit_errors_retried_witness :
    2 ≤ (fetchGeminiResponse cexParse true cexEnv).calls ∧
    (fetchGeminiResponse cexParse true cexEnv).result = .ok 42 ∧
    (fetchGeminiResponse cexParse true cexEnv).waits = [] := by
  have h := nonratelimit_errors_retried_while_attempts_remain cexParse cexEnv
    cexError rfl
  obtain ⟨hcalls, hok, -⟩ := h.1 rfl
  exact ⟨hcalls, (hok 42 rfl).1, (hok 42 rfl).2⟩

/-! ## Claim C5: fenced JSON with surrounding prose is still parsed -/

lemma matchHead_append_self (pat s : List Char) : matchHead pat (pat ++ s) = true := by
  induction pat with
  | nil => rfl
  | cons p ps ih => simp [matchHead, ih]

lemma matchHead_cons_false {p c : Char} (ps cs : List Char) (h : c ≠ p) :
    matchHead (p :: ps) (c :: cs) = false := by
  simp [matchHead]
  intro hpc
  exact absurd hpc.symm h

lemma matchHead_false_of_not_mem (p : Char) (ps s : List Char) (h : p ∉ s) :
    matchHead (p :: ps) s = false := by
  cases s with
  | nil => rfl
  | cons c cs =>
    refine matchHead_cons_false ps cs fun hc => h ?_
    simp [hc]

lemma stripPat_nil (pat : List Char) : stripPat pat [] = [] := by
  cases pat <;> simp [stripPat]

lemma stripPat_cons (p c : Char) (ps cs : List Char) :
    stripPat (p :: ps) (c :: cs)
      = if matchHead (p :: ps) (c :: cs) then stripPat (p :: ps) (cs.drop ps.length)
        else c :: stripPat (p :: ps) cs := by
  simp [stripPat]

lemma stripPat_append_not_mem (p0 : Char) (ps a s : List Char) (h : p0 ∉ a) :
    stripPat (p0 :: ps) (a ++ s) = a ++ stripPat (p0 :: ps) s := by
  induction a with
  | nil => simp
  | cons c cs ih =>
    have hc : c ≠ p0 := fun hcc => h (by simp [hcc])
    have hcs : p0 ∉ cs := fun hmem => h (by simp [hmem])
    rw [List.cons_append, stripPat_cons,
      matchHead_cons_false _ _ hc, if_neg (by simp), ih hcs, List.cons_append]

lemma stripPat_self_append (p0 : Char) (ps s : List Char) :
    stripPat (p0 :: ps) ((p0 :: ps) ++ s) = stripPat (p0 :: ps) s := by
  rw [List.cons_append, stripPat_cons]
  have hm : matchHead (p0 :: ps) (p0 :: (ps ++ s)) = true := by
    have := matchHead_append_self (p0 :: ps) s
    simpa using this
  rw [hm, if_pos rfl]
  congr 1
  exact List.drop_left ps s

lemma stripPat_not_mem (p0 : Char) (ps s : List Char) (h : p0 ∉ s) :
    stripPat (p0 :: ps) s = s := by
  induction s with
  | nil => simp [stripPat_nil]
  | cons c cs ih =>
    have hc : c ≠ p0 := fun hcc => h (by simp [hcc])
    have hcs : p0 ∉ cs := fun hmem => h (by simp [hmem])
    rw [stripPat_cons, matchHead_cons_false _ _ hc, if_neg (by simp), ih hcs]

/-- Effect of the two fence-stripping replaces of line 52 on a response of the
shape `prose ++ "```json" ++ json ++ "```" ++ prose`: both fences disappear
and the backtick-free pieces survive (the trailing prose may lose a leading
"json" eaten together with the closing fence). -/
lemma strip_fences (p1 j p2 : List Char) (hp1 : '`' ∉ p1) (hj : '`' ∉ j)
    (hp2 : '`' ∉ p2) :
    ∃ p2' : List Char, p2' ⊆ p2 ∧
      stripPat fencePat (stripPat jsonFencePat
          (p1 ++ jsonFencePat ++ j ++ fencePat ++ p2))
        = p1 ++ j ++ p2' := by
  have e1 : stripPat jsonFencePat (p1 ++ jsonFencePat ++ j ++ fencePat ++ p2)
      = p1 ++ (j ++ stripPat jsonFencePat (fencePat ++ p2)) := by
    rw [show p1 ++ jsonFencePat ++ j ++ fencePat ++ p2
          = p1 ++ (jsonFencePat ++ (j ++ (fencePat ++ p2))) from by
        simp [List.append_assoc]]
    rw [stripPat_append_not_mem _ _ _ _ hp1, stripPat_self_append,
      stripPat_append_not_mem _ _ _ _ hj]
  by_cases hJ : matchHead ['j', 's', 'o', 'n'] p2 = true
  · -- the closing fence is directly followed by "json": the first replace
    -- removes the fence together with those four characters
    have e2 : stripPat jsonFencePat (fencePat ++ p2) = p2.drop 4 := by
      rw [show fencePat ++ p2 = '`' :: ('`' :: '`' :: p2) from rfl, stripPat_cons]
      have hm : matchHead jsonFencePat ('`' :: ('`' :: '`' :: p2)) = true := by
        simpa [matchHead] using hJ
      rw [hm, if_pos rfl]
      rw [show ((('`' : Char) :: '`' :: p2).drop
            (['`', '`', 'j', 's', 'o', 'n'] : List Char).length) = p2.drop 4 from rfl]
      exact stripPat_not_mem _ _ _ fun hmem => hp2 (List.drop_subset _ _ hmem)
    have hfree : ('`' : Char) ∉ p1 ++ j ++ p2.drop 4 := by
      simp only [List.mem_append]
      rintro ((h | h) | h)
      · exact hp1 h
      · exact hj h
      · exact hp2 (List.drop_subset _ _ h)
    refine ⟨p2.drop 4, fun x hx => List.drop_subset _ _ hx, ?_⟩
    rw [e1, e2, show p1 ++ (j ++ p2.drop 4) = p1 ++ j ++ p2.drop 4 from by
        simp [List.append_assoc]]
    exact stripPat_not_mem _ _ _ hfree
  · -- the first replace leaves the closing fence alone
    have hJ' : matchHead ['j', 's', 'o', 'n'] p2 = false := by
      simpa using hJ
    have e2 : stripPat jsonFencePat (fencePat ++ p2) = fencePat ++ p2 := by
      rw [show fencePat ++ p2 = '`' :: ('`' :: '`' :: p2) from rfl, stripPat_cons]
      have hm1 : matchHead jsonFencePat ('`' :: ('`' :: '`' :: p2)) = false := by
        simpa [matchHead] using hJ'
      rw [hm1, if_neg (by simp), stripPat_cons]
      have hm2 : matchHead jsonFencePat ('`' :: ('`' :: p2)) = false := by
        simp only [jsonFencePat, matchHead, beq_self_eq_true, Bool.true_and]
        exact matchHead_false_of_not_mem _ _ _ hp2
      rw [hm2, if_neg (by simp), stripPat_cons]
      have hm3 : matchHead jsonFencePat ('`' :: p2) = false := by
        simp only [jsonFencePat, matchHead, beq_self_eq_true, Bool.true_and]
        exact matchHead_false_of_not_mem _ _ _ hp2
      rw [hm3, if_neg (by simp), stripPat_not_mem _ _ _ hp2]
    refine ⟨p2, fun x hx => hx, ?_⟩
    rw [e1, e2]
    rw [show p1 ++ (j ++ (fencePat ++ p2)) = p1 ++ (j ++ (fencePat ++ p2)) from rfl]
    rw [stripPat_append_not_mem _ _ _ _ hp1, stripPat_append_not_mem _ _ _ _ hj,
      stripPat_self_append, stripPat_not_mem _ _ _ hp2, List.append_assoc]

lemma dropWhile_append_of_neg (p : Char → Bool) (a : List Char) (c : Char)
    (t : List Char) (hc : p c = false) :
    (a ++ c :: t).dropWhile p = a.dropWhile p ++ c :: t := by
  induction a with
  | nil => simp [List.dropWhile_cons, hc]
  | cons x xs ih => by_cases hx : p x <;> simp [List.dropWhile_cons, hx, ih]

/-- Trimming a string whose first non-prose brace region is protected by
non-whitespace braces only shortens the prose at the two ends. -/
lemma jsTrim_braces (a mid b : List Char) :
    jsTrim (a ++ '\x7b' :: (mid ++ '\x7d' :: b))
      = a.dropWhile isWsJS
          ++ '\x7b' :: (mid ++ '\x7d' :: (b.reverse.dropWhile isWsJS).reverse) := by
  unfold jsTrim
  rw [dropWhile_append_of_neg isWsJS a '\x7b' (mid ++ '\x7d' :: b) (by decide)]
  rw [show a.dropWhile isWsJS ++ '\x7b' :: (mid ++ '\x7d' :: b)
        = (a.dropWhile isWsJS ++ '\x7b' :: mid) ++ '\x7d' :: b from by simp]
  rw [List.reverse_append]
  rw [show (('\x7d' : Char) :: b).reverse = b.reverse ++ ['\x7d'] from by simp]
  rw [List.append_assoc, List.singleton_append]
  rw [dropWhile_append_of_neg isWsJS b.reverse '\x7d' _ (by decide)]
  rw [List.reverse_append]
  simp [List.append_assoc]

lemma jsIndexOfChar_append_not_mem (c : Char) (a t : List Char) (h : c ∉ a) :
    jsIndexOfChar c (a ++ c :: t) = some a.length := by
  induction a with
  | nil => simp [jsIndexOfChar]
  | cons x xs ih =>
    have hx : x ≠ c := fun hxc => h (by simp [hxc])
    have hxs : c ∉ xs := fun hmem => h (by simp [hmem])
    simp [jsIndexOfChar, hx, ih hxs]

/-- The cleanup pipeline of lines 52-59 applied to a response that wraps one
JSON object (brace-delimited, backtick-free) in code fences and backtick- and
brace-free prose returns exactly that JSON object. -/
lemma cleanResponseText_extracts (p1 p2 mid : List Char)
    (hp1b : '`' ∉ p1) (hp1l : '\x7b' ∉ p1) (hp1r : '\x7d' ∉ p1)
    (hp2b : '`' ∉ p2) (hp2l : '\x7b' ∉ p2) (hp2r : '\x7d' ∉ p2)
    (hmidb : '`' ∉ mid) :
    cleanResponseText
        (p1 ++ jsonFencePat ++ ('\x7b' :: (mid ++ ['\x7d'])) ++ fencePat ++ p2)
      = '\x7b' :: (mid ++ ['\x7d']) := by
  have hjb : ('`' : Char) ∉ '\x7b' :: (mid ++ ['\x7d']) := by
    intro h
    rcases List.mem_cons.mp h with h1 | h2
    · exact absurd h1 (by decide)
    · rcases List.mem_append.mp h2 with h3 | h4
      · exact hmidb h3
      · exact absurd h4 (by decide)
  obtain ⟨p2', hsub, hstrip⟩ :=
    strip_fences p1 ('\x7b' :: (mid ++ ['\x7d'])) p2 hp1b hjb hp2b
  have hp2'r : '\x7d' ∉ p2' := fun h => hp2r (hsub h)
  have hp2'l : '\x7b' ∉ p2' := fun h => hp2l (hsub h)
  simp only [cleanResponseText]
  rw [hstrip]
  rw [show p1 ++ '\x7b' :: (mid ++ ['\x7d']) ++ p2'
        = p1 ++ '\x7b' :: (mid ++ '\x7d' :: p2') from by simp]
  rw [jsTrim_braces]
  set a := p1.dropWhile isWsJS with hadef
  set b := (p2'.reverse.dropWhile isWsJS).reverse with hbdef
  have hal : '\x7b' ∉ a := fun h =>
    hp1l ((List.dropWhile_sublist isWsJS).subset h)
  have hbr : '\x7d' ∉ b := by
    intro h
    rw [hbdef] at h
    rw [List.mem_reverse] at h
    exact hp2'r (by
      have := (List.dropWhile_sublist isWsJS).subset h
      rwa [List.mem_reverse] at this)
  have hfirst : jsIndexOfChar '\x7b' (a ++ '\x7b' :: (mid ++ '\x7d' :: b))
      = some a.length := jsIndexOfChar_append_not_mem _ _ _ hal
  have hrev : (a ++ '\x7b' :: (mid ++ '\x7d' :: b)).reverse
      = b.reverse ++ '\x7d' :: (a ++ '\x7b' :: mid).reverse := by
    rw [show a ++ '\x7b' :: (mid ++ '\x7d' :: b)
          = (a ++ '\x7b' :: mid) ++ '\x7d' :: b from by simp]
    simp [List.reverse_append, List.append_assoc]
  have hlastrev : jsIndexOfChar '\x7d' (a ++ '\x7b' :: (mid ++ '\x7d' :: b)).reverse
      = some b.length := by
    rw [hrev]
    have := jsIndexOfChar_append_not_mem '\x7d' b.reverse
      ((a ++ '\x7b' :: mid).reverse) (by simpa using hbr)
    simpa using this
  have hlen : (a ++ '\x7b' :: (mid ++ '\x7d' :: b)).length
      = a.length + mid.length + b.length + 2 := by
    simp [List.length_append]
    omega
  have hlast : jsLastIndexOfChar '\x7d' (a ++ '\x7b' :: (mid ++ '\x7d' :: b))
      = some (a.length + mid.length + 1) := by
    unfold jsLastIndexOfChar
    rw [hlastrev]
    simp only [Option.map_some']
    congr 1
    rw [hlen]
    omega
  rw [hfirst, hlast]
  show jsSubstring (a ++ '\x7b' :: (mid ++ '\x7d' :: b)) a.length
      (a.length + mid.length + 1 + 1) = '\x7b' :: (mid ++ ['\x7d'])
  unfold jsSubstring
  have hmax : max a.length (a.length + mid.length + 1 + 1)
      = a.length + (mid.length + 2) := by omega
  have hmin : min a.length (a.length + mid.length + 1 + 1) = a.length := by omega
  rw [hmax, hmin]
  rw [show a ++ '\x7b' :: (mid ++ '\x7d' :: b)
        = a ++ (('\x7b' :: (mid ++ ['\x7d'])) ++ b) from by simp]
  rw [show a.length + (mid.length + 2)
        = a.length + ('\x7b' :: (mid ++ ['\x7d'])).length from by simp]
  rw [List.take_append, List.take_left, List.drop_left]

/-- C5: a response that wraps one well-formed JSON object (any `parse`
accepting it stands for `JSON.parse`) in code fences and backtick- and
brace-free prose is cleaned to exactly that object, parses successfully
inside the attempt, and the wrapper returns its parsed value
(`src/services/geminiService.ts` lines 49-70). -/
theorem fenced_json_response_parsed {α : Type} (parse : List Char → Option α)
    (p1 p2 mid : List Char) (v : α)
    (hp1b : '`' ∉ p1) (hp1l : '\x7b' ∉ p1) (hp1r : '\x7d' ∉ p1)
    (hp2b : '`' ∉ p2) (hp2l : '\x7b' ∉ p2) (hp2r : '\x7d' ∉ p2)
    (hmidb : '`' ∉ mid)
    (hparse : parse ('\x7b' :: (mid ++ ['\x7d'])) = some v) :
    cleanResponseText
        (p1 ++ jsonFencePat ++ ('\x7b' :: (mid ++ ['\x7d'])) ++ fencePat ++ p2)
      = '\x7b' :: (mid ++ ['\x7d']) ∧
    attemptOutcome parse (ApiResult.respond
        (some (p1 ++ jsonFencePat ++ ('\x7b' :: (mid ++ ['\x7d'])) ++ fencePat ++ p2)))
      = .ok v ∧
    (fetchGeminiResponse parse true (fun _ => ApiResult.respond
        (some (p1 ++ jsonFencePat ++ ('\x7b' :: (mid ++ ['\x7d'])) ++ fencePat ++ p2)))).result
      = .ok v := by
  have hclean := cleanResponseText_extracts p1 p2 mid hp1b hp1l hp1r hp2b hp2l
    hp2r hmidb
  have hne : p1 ++ jsonFencePat ++ ('\x7b' :: (mid ++ ['\x7d'])) ++ fencePat ++ p2
      ≠ ([] : List Char) := by simp
  have hatt : attemptOutcome parse (ApiResult.respond
      (some (p1 ++ jsonFencePat ++ ('\x7b' :: (mid ++ ['\x7d'])) ++ fencePat ++ p2)))
      = .ok v := by
    simp only [attemptOutcome, responseTextOrDefault]
    rw [if_neg hne, hclean, hparse]
  refine ⟨hclean, hatt, ?_⟩
  rcases fetch_case_analysis parse (fun _ => ApiResult.respond
      (some (p1 ++ jsonFencePat ++ ('\x7b' :: (mid ++ ['\x7d'])) ++ fencePat ++ p2))) with
    ⟨d, h0, hR⟩ | ⟨e0, d, h0, h1, hR⟩ | ⟨e0, e1, d, h0, h1, h2, hR⟩ |
    ⟨e0, e1, e2, h0, h1, h2, hR⟩
  · rw [hatt] at h0
    cases h0
    rw [hR]
  · rw [hatt] at h0
    cases h0
  · rw [hatt] at h0
    cases h0
  · rw [hatt] at h0
    cases h0

/-- Witness for C5: "Sure! Here it is: ```json ... ``` Hope that helps." with
the object `\x7b"a":1\x7d` and a parse function accepting exactly it. -/
theorem fenced_json_response_parsed_witness :
    cleanResponseText
        (("Sure: ".data) ++ jsonFencePat
          ++ ('\x7b' :: (("\x22a\x22:1".data) ++ ['\x7d'])) ++ fencePat
          ++ (" ok".data))
      = '\x7b' :: (("\x22a\x22:1".data) ++ ['\x7d']) ∧
    attemptOutcome
        (fun s => if s = '\x7b' :: (("\x22a\x22:1".data) ++ ['\x7d'])
          then some 1 else none)
        (ApiResult.respond (some (("Sure: ".data) ++ jsonFencePat
          ++ ('\x7b' :: (("\x22a\x22:1".data) ++ ['\x7d'])) ++ fencePat
          ++ (" ok".data))))
      = .ok 1 := by
  have h := fenced_json_response_parsed
    (fun s => if s = '\x7b' :: (("\x22a\x22:1".data) ++ ['\x7d'])
      then some 1 else none)
    ("Sure: ".data) (" ok".data) ("\x22a\x22:1".data) 1
    (by decide) (by decide) (by decide) (by decide) (by decide) (by decide)
    (by decide) (by simp)
  exact ⟨h.1, h.2.1⟩

/-! ## Claim C6: the two analysis phases run sequentially and merge partially -/

/-- A grounding source: `(title, uri)`
(`src/services/geminiService.ts` line 427). -/
abbrev Src : Type := List Char × List Char

/-- `extractSources` (lines 430-438): append the found web sources when there
are any. -/
def extractSourcesStep (allSources found : List Src) : List Src :=
  if found ≠ [] then allSources ++ found else allSources

/-- One `Map.set` step of the uri-keyed dedup map of line 457: an existing key
keeps its position and takes the new value, a new key is appended. -/
def upsertByUri (m : List (List Char × Src)) (it : Src) : List (List Char × Src) :=
  if m.any fun kv => kv.1 == it.2 then
    m.map fun kv => if kv.1 == it.2 then (kv.1, it) else kv
  else m ++ [(it.2, it)]

/-- Line 457: `Array.from(new Map(allSources.map(item => [item.uri, item])).values())`. -/
def dedupByUri (l : List Src) : List Src :=
  (l.foldl upsertByUri []).map (·.2)

/-- The analysis result accumulated across the two phases.  The two prompt
schemas have disjoint field sets, so the object spreads of lines 444 and 459
amount to setting the per-phase field groups (`α` for phase 1, `β` for
phase 2) and the source list. -/
structure AnalysisResultM (α β : Type) where
  phase1Fields : Option α
  phase2Fields : Option β
  sources : List Src
deriving DecidableEq, Repr

/-- `generatePortfolioAnalysis` (`src/services/geminiService.ts`
lines 426-463): run phase 1 inside its own try/catch, report on success, then
run phase 2 the same way; each phase outcome is the corresponding
`fetchGeminiResponse` result (payload plus extracted sources).  Returns the
final accumulated result together with the list of `onUpdate` payloads in
call order. -/
def generatePortfolioAnalysis {α β : Type}
    (phase1 : Except Unit (α × List Src)) (phase2 : Except Unit (β × List Src)) :
    AnalysisResultM α β × List (AnalysisResultM α β) :=
  let cur0 : AnalysisResultM α β := ⟨none, none, []⟩
  let step1 : AnalysisResultM α β × List Src × List (AnalysisResultM α β) :=
    match phase1 with
    | .ok (d, found) =>
      let all1 := extractSourcesStep [] found
      let cur1 : AnalysisResultM α β := ⟨some d, cur0.phase2Fields, all1⟩
      (cur1, all1, [cur1])
    | .error _ => (cur0, [], [])
  match phase2 with
  | .ok (d, found) =>
    let all2 := extractSourcesStep step1.2.1 found
    let uniqueSources := dedupByUri all2
    let cur2 : AnalysisResultM α β :=
      ⟨step1.1.phase1Fields, some d, uniqueSources⟩
    (cur2, step1.2.2 ++ [cur2])
  | .error _ => (step1.1, step1.2.2)

/-- C6: whichever phases succeed land in the final merged result (a failure of
one phase never blocks or erases the other), each successful phase is
reported through the update callback (phase 1's report first, phase 2's
last), and the number of reports equals the number of successful phases. -/
theorem analysis_phases_merge_partial_results {α β : Type}
    (phase1 : Except Unit (α × List Src)) (phase2 : Except Unit (β × List Src)) :
    (∀ d s, phase1 = .ok (d, s) →
      (generatePortfolioAnalysis phase1 phase2).1.phase1Fields = some d) ∧
    (∀ d s, phase2 = .ok (d, s) →
      (generatePortfolioAnalysis phase1 phase2).1.phase2Fields = some d) ∧
    (∀ d s, phase1 = .ok (d, s) →
      ∃ u, (generatePortfolioAnalysis phase1 phase2).2.head? = some u ∧
        u.phase1Fields = some d) ∧
    (∀ d s, phase2 = .ok (d, s) →
      ∃ u, (generatePortfolioAnalysis phase1 phase2).2.getLast? = some u ∧
        u.phase2Fields = some d) ∧
    (generatePortfolioAnalysis phase1 phase2).2.length
      = (if phase1.isOk then 1 else 0) + (if phase2.isOk then 1 else 0) := by
  rcases phase1 with e1 | ⟨d1, s1⟩ <;> rcases phase2 with e2 | ⟨d2, s2⟩ <;>
    simp [generatePortfolioAnalysis, Except.isOk, Except.toBool]

/-- Witness for C6 at concrete phase payloads: both phases succeed and both
land in the result and in the two reports. -/
theorem analysis_phases_merge_partial_results_witness :
    (generatePortfolioAnalysis (α := ℕ) (β := ℕ)
        (.ok (7, [])) (.ok (9, []))).1.phase1Fields = some 7 ∧
    (generatePortfolioAnalysis (α := ℕ) (β := ℕ)
        (.ok (7, [])) (.ok (9, []))).1.phase2Fields = some 9 ∧
    (generatePortfolioAnalysis (α := ℕ) (β := ℕ)
        (.ok (7, [])) (.ok (9, []))).2.length = 2 := by
  have h := analysis_phases_merge_partial_results (α := ℕ) (β := ℕ)
    (.ok (7, [])) (.ok (9, []))
  refine ⟨h.1 7 [] rfl, h.2.1 9 [] rfl, ?_⟩
  rw [h.2.2.2.2]
  rfl

/-! ## Spreadsheet import (`src/unnamed/part_001`, `handleFileUpload`) -/

/-- A spreadsheet cell as the import loop consumes it: `str` is `String(x)`
and `num` is `Number(x)`, `none` standing for `NaN`.  (The `xlsx` sheet parse
is a host library; each cell carries its two JS coercions directly.) -/
structure Cell where
  str : List Char
  num : Option ℚ
deriving DecidableEq, Repr

instance : Inhabited StockPosition := ⟨⟨0, [], 0, 0, 0⟩⟩

/-- `String(undefined)` / `Number(undefined)` for an out-of-range column. -/
def undefinedCell : Cell := ⟨"undefined".data, none⟩

instance : Inhabited Cell := ⟨⟨"undefined".data, none⟩⟩

/-- `row[i]` with JS out-of-range semantics. -/
def getCell (row : List Cell) (i : ℕ) : Cell :=
  row.getD i undefinedCell

/-- `String(row[0]).toUpperCase().trim()` (`src/unnamed/part_001` line 93). -/
def rowSymbol (row : List Cell) : List Char :=
  jsTrim (jsToUpper (getCell row 0).str)

/-- One iteration of the `jsonData.forEach((row, index) => ...)` loop of
`handleFileUpload` (`src/unnamed/part_001` lines 90-130), acting on the
accumulated `(stockMap, importedCount)`.  The JS `Map` is an association
list keyed by symbol in insertion order; `Map.set` on an existing key
updates in place. -/
def processRow (acc : List (List Char × StockPosition) × ℕ)
    (ir : ℕ × List Cell) : List (List Char × StockPosition) × ℕ :=
  if ir.2.length < 3 then acc
  else
    let symbol := rowSymbol ir.2
    let qty := (getCell ir.2 1).num
    let cost := (getCell ir.2 2).num
    if ir.1 = 0 ∧ (qty = none ∨ cost = none) then acc
    else
      match qty, cost with
      | some q, some c =>
        if symbol ≠ [] ∧ 0 < q then
          if acc.1.any fun kv => kv.1 == symbol then
            (acc.1.map fun kv =>
              if kv.1 == symbol then
                (kv.1, { kv.2 with
                  shares := kv.2.shares + q,
                  avgBuyPrice := (kv.2.shares * kv.2.avgBuyPrice + q * c)
                    / (kv.2.shares + q) })
              else kv,
              acc.2 + 1)
          else (acc.1 ++ [(symbol, ⟨0, symbol, q, c, c⟩)], acc.2 + 1)
        else acc
      | _, _ => acc

/-- The aggregation of `handleFileUpload` (`src/unnamed/part_001`
lines 87-132): fold the rows with their indices, then take the map's values
in insertion order, paired with the imported-row count. -/
def handleFileUpload (rows : List (List Cell)) : List StockPosition × ℕ :=
  let res := rows.enum.foldl processRow ([], 0)
  (res.1.map (·.2), res.2)

/-- The entry a row contributes when it passes the validity test of line 100
(`symbol && !isNaN(qty) && !isNaN(cost) && qty > 0` on a row of at least 3
cells).  The header heuristic of line 98 skips only rows this test rejects
anyway, so validity does not depend on the row index. -/
def rowEntry (row : List Cell) : Option (List Char × ℚ × ℚ) :=
  if row.length < 3 then none
  else
    match (getCell row 1).num, (getCell row 2).num with
    | some q, some c =>
      if rowSymbol row ≠ [] ∧ 0 < q then some (rowSymbol row, q, c) else none
    | _, _ => none

/-- All valid entries of a spreadsheet, in order. -/
def validEntries (rows : List (List Cell)) : List (List Char × ℚ × ℚ) :=
  rows.filterMap rowEntry

/-- The pure symbol-keyed aggregation step, index bookkeeping removed. -/
def aggStep (m : List (List Char × StockPosition)) (e : List Char × ℚ × ℚ) :
    List (List Char × StockPosition) :=
  if m.any fun kv => kv.1 == e.1 then
    m.map fun kv =>
      if kv.1 == e.1 then
        (kv.1, { kv.2 with
          shares := kv.2.shares + e.2.1,
          avgBuyPrice := (kv.2.shares * kv.2.avgBuyPrice + e.2.1 * e.2.2)
            / (kv.2.shares + e.2.1) })
      else kv
  else m ++ [(e.1, ⟨0, e.1, e.2.1, e.2.2, e.2.2⟩)]

lemma processRow_eq (acc : List (List Char × StockPosition) × ℕ) (i : ℕ)
    (row : List Cell) :
    processRow acc (i, row)
      = match rowEntry row with
        | some e => (aggStep acc.1 e, acc.2 + 1)
        | none => acc := by
  rcases acc with ⟨m, n⟩
  by_cases hlen : row.length < 3
  · simp [processRow, rowEntry, hlen]
  · rcases hq : (getCell row 1).num with _ | q <;>
      rcases hc : (getCell row 2).num with _ | c
    · by_cases hi : i = 0 <;> simp [processRow, rowEntry, hlen, hq, hc, hi]
    · by_cases hi : i = 0 <;> simp [processRow, rowEntry, hlen, hq, hc, hi]
    · by_cases hi : i = 0 <;> simp [processRow, rowEntry, hlen, hq, hc, hi]
    · by_cases hcond : rowSymbol row ≠ [] ∧ 0 < q <;>
        by_cases hany : (m.any fun kv => kv.1 == rowSymbol row) = true <;>
          simp [processRow, rowEntry, aggStep, hlen, hq, hc, hcond, hany]

lemma foldl_processRow_enumFrom (rows : List (List Cell)) :
    ∀ (k : ℕ) (m : List (List Char × StockPosition)) (n : ℕ),
      (rows.enumFrom k).foldl processRow (m, n)
        = ((validEntries rows).foldl aggStep m, n + (validEntries rows).length) := by
  induction rows with
  | nil =>
    intro k m n
    simp [validEntries]
  | cons row rest ih =>
    intro k m n
    rw [show (row :: rest).enumFrom k = (k, row) :: rest.enumFrom (k + 1) from rfl]
    rw [List.foldl_cons, processRow_eq]
    cases he : rowEntry row with
    | none =>
      simp only [validEntries, List.filterMap_cons, he]
      exact ih (k + 1) m n
    | some e =>
      simp only [validEntries, List.filterMap_cons, he, List.foldl_cons,
        List.length_cons]
      rw [ih (k + 1) (aggStep m e) (n + 1)]
      simp only [validEntries]
      refine congrArg (Prod.mk _) ?_
      omega

lemma handleFileUpload_eq (rows : List (List Cell)) :
    handleFileUpload rows
      = (((validEntries rows).foldl aggStep []).map (·.2),
          (validEntries rows).length) := by
  unfold handleFileUpload
  rw [show rows.enum = rows.enumFrom 0 from rfl,
    foldl_processRow_enumFrom rows 0 [] 0]
  simp

lemma validEntries_pos (rows : List (List Cell)) :
    ∀ e ∈ validEntries rows, 0 < e.2.1 := by
  intro e he
  rcases List.mem_filterMap.mp he with ⟨row, _, hent⟩
  unfold rowEntry at hent
  split at hent
  · cases hent
  · split at hent
    · split at hent
      · rename_i hcond
        cases hent
        exact hcond.2
      · cases hent
    · cases hent

/-- The valid entries carrying a given symbol. -/
def symEntries (s : List Char) (es : List (List Char × ℚ × ℚ)) :
    List (List Char × ℚ × ℚ) :=
  es.filter fun e => e.1 == s

/-- Total quantity of a list of entries. -/
def sumShares (es : List (List Char × ℚ × ℚ)) : ℚ :=
  (es.map (·.2.1)).sum

/-- Total cost (quantity × unit cost) of a list of entries. -/
def sumCost (es : List (List Char × ℚ × ℚ)) : ℚ :=
  (es.map fun e => e.2.1 * e.2.2).sum

lemma symEntries_append_single (s : List Char) (es : List (List Char × ℚ × ℚ))
    (e : List Char × ℚ × ℚ) :
    symEntries s (es ++ [e])
      = symEntries s es ++ if e.1 == s then [e] else [] := by
  unfold symEntries
  rw [List.filter_append, List.filter_singleton]
  cases h : e.1 == s <;> simp [h]

/-- The aggregation-map invariant: after folding any list of positive-quantity
entries, the keys are distinct, each value carries its key as symbol with the
accumulated share count as shares (positive) and the accumulated cost as
`shares * avgBuyPrice`, and a key is present exactly when some entry carries
it. -/
lemma aggFold_invariant (es : List (List Char × ℚ × ℚ)) :
    (∀ e ∈ es, 0 < e.2.1) →
    ((es.foldl aggStep []).map Prod.fst).Nodup ∧
    (∀ kv ∈ es.foldl aggStep [], kv.2.symbol = kv.1 ∧
      kv.2.shares = sumShares (symEntries kv.1 es) ∧
      kv.2.shares * kv.2.avgBuyPrice = sumCost (symEntries kv.1 es) ∧
      0 < kv.2.shares) ∧
    (∀ s : List Char,
      (∃ kv ∈ es.foldl aggStep [], kv.1 = s) ↔ symEntries s es ≠ []) := by
  induction es using List.reverseRecOn with
  | nil =>
    intro _
    refine ⟨by simp, by simp, fun s => ?_⟩
    simp [symEntries]
  | append_singleton l e ih =>
    intro hpos
    have hposl : ∀ x ∈ l, 0 < x.2.1 := fun x hx => hpos x (by simp [hx])
    have hpose : 0 < e.2.1 := hpos e (by simp)
    obtain ⟨hnd, hvals, hmem⟩ := ih hposl
    rw [List.foldl_append, List.foldl_cons, List.foldl_nil]
    set M := l.foldl aggStep [] with hM
    by_cases hhas : (M.any fun kv => kv.1 == e.1) = true
    · -- the symbol is already a key: in-place weighted-average update
      have hupd : aggStep M e = M.map fun kv =>
          if kv.1 == e.1 then
            (kv.1, { kv.2 with
              shares := kv.2.shares + e.2.1,
              avgBuyPrice := (kv.2.shares * kv.2.avgBuyPrice + e.2.1 * e.2.2)
                / (kv.2.shares + e.2.1) })
          else kv := by
        unfold aggStep
        rw [if_pos hhas]
      have hkeys : (aggStep M e).map Prod.fst = M.map Prod.fst := by
        rw [hupd, List.map_map]
        apply List.map_congr_left
        intro kv _
        by_cases h : kv.1 = e.1 <;> simp [h]
      refine ⟨by rw [hkeys]; exact hnd, ?_, ?_⟩
      · intro kv' hkv'
        rw [hupd] at hkv'
        rcases List.mem_map.mp hkv' with ⟨kv, hkvM, hkveq⟩
        obtain ⟨hsym, hsh, hcost, hp⟩ := hvals kv hkvM
        by_cases hk : (kv.1 == e.1) = true
        · rw [if_pos hk] at hkveq
          have hk' : kv.1 = e.1 := by simpa using hk
          have hse : symEntries kv.1 (l ++ [e]) = symEntries kv.1 l ++ [e] := by
            rw [symEntries_append_single, if_pos (by simp [hk'])]
          subst hkveq
          refine ⟨hsym, ?_, ?_, by linarith⟩
          · simp only [hse, sumShares, List.map_append, List.sum_append]
            simp [sumShares] at hsh
            simp [hsh]
          · have hne : kv.2.shares + e.2.1 ≠ 0 := by linarith
            simp only [hse, sumCost, List.map_append, List.sum_append]
            simp [sumCost] at hcost
            field_simp
            rw [← hcost]
        · rw [if_neg hk] at hkveq
          subst hkveq
          have hk' : kv.1 ≠ e.1 := by simpa using hk
          have hse : symEntries kv.1 (l ++ [e]) = symEntries kv.1 l := by
            rw [symEntries_append_single, if_neg (by simp [Ne.symm hk'])]
            simp
          rw [hse]
          exact ⟨hsym, hsh, hcost, hp⟩
      · intro s
        have hlhs : (∃ kv ∈ aggStep M e, kv.1 = s) ↔ ∃ kv ∈ M, kv.1 = s := by
          constructor
          · rintro ⟨kv', hkv', hks⟩
            rw [hupd] at hkv'
            rcases List.mem_map.mp hkv' with ⟨kv, hkvM, hkveq⟩
            refine ⟨kv, hkvM, ?_⟩
            by_cases hk : (kv.1 == e.1) = true
            · rw [if_pos hk] at hkveq
              rw [← hkveq] at hks
              exact hks
            · rw [if_neg hk] at hkveq
              rw [hkveq]
              exact hks
          · rintro ⟨kv, hkvM, hks⟩
            rw [hupd]
            by_cases hk : (kv.1 == e.1) = true
            · exact ⟨_, List.mem_map_of_mem _ hkvM, by rw [if_pos hk]; exact hks⟩
            · exact ⟨_, List.mem_map_of_mem _ hkvM, by rw [if_neg hk]; exact hks⟩
        rw [hlhs, hmem s, symEntries_append_single]
        by_cases hes : (e.1 == s) = true
        · have hs' : e.1 = s := by simpa using hes
          rcases List.any_eq_true.mp hhas with ⟨kv, hkvM, hkv⟩
          have : symEntries s l ≠ [] := by
            refine (hmem s).mp ⟨kv, hkvM, ?_⟩
            have : kv.1 = e.1 := by simpa using hkv
            rw [this, hs']
          simp [hes, this]
        · simp [hes]
    · -- new symbol: appended with the row's quantity and cost
      have hupd : aggStep M e = M ++ [(e.1, ⟨0, e.1, e.2.1, e.2.2, e.2.2⟩)] := by
        unfold aggStep
        rw [if_neg hhas]
      have hnotmem : ∀ kv ∈ M, kv.1 ≠ e.1 := by
        intro kv hkv heq
        exact hhas (List.any_eq_true.mpr ⟨kv, hkv, by simp [heq]⟩)
      have hsE : symEntries e.1 l = [] := by
        by_contra hne
        obtain ⟨kv, hkvM, hk⟩ := (hmem e.1).mpr hne
        exact hnotmem kv hkvM hk
      refine ⟨?_, ?_, ?_⟩
      · rw [hupd, List.map_append]
        simp only [List.map_cons, List.map_nil]
        rw [List.nodup_append]
        refine ⟨hnd, List.nodup_singleton _, ?_⟩
        intro x hx hx1
        rcases List.mem_map.mp hx with ⟨kv, hkvM, hkeq⟩
        simp only [List.mem_singleton] at hx1
        exact hnotmem kv hkvM (by rw [hkeq, hx1])
      · intro kv' hkv'
        rw [hupd] at hkv'
        rcases List.mem_append.mp hkv' with hin | hin
        · obtain ⟨hsym, hsh, hcost, hp⟩ := hvals kv' hin
          have hk' : kv'.1 ≠ e.1 := hnotmem kv' hin
          have hse : symEntries kv'.1 (l ++ [e]) = symEntries kv'.1 l := by
            rw [symEntries_append_single, if_neg (by simp [Ne.symm hk'])]
            simp
          rw [hse]
          exact ⟨hsym, hsh, hcost, hp⟩
        · simp only [List.mem_singleton] at hin
          subst hin
          have hse : symEntries e.1 (l ++ [e]) = [e] := by
            rw [symEntries_append_single, if_pos (by simp), hsE, List.nil_append]
          refine ⟨rfl, ?_, ?_, hpose⟩
          · simp [hse, sumShares]
          · simp [hse, sumCost]
      · intro s
        rw [hupd, symEntries_append_single]
        constructor
        · rintro ⟨kv, hkv, hks⟩
          rcases List.mem_append.mp hkv with hin | hin
          · have : symEntries s l ≠ [] := (hmem s).mp ⟨kv, hin, hks⟩
            simp [this]
          · simp only [List.mem_singleton] at hin
            subst hin
            simp only [← hks]
            simp
        · intro hne
          by_cases hes : (e.1 == s) = true
          · have hs' : e.1 = s := by simpa using hes
            exact ⟨(e.1, ⟨0, e.1, e.2.1, e.2.2, e.2.2⟩), by simp, hs'⟩
          · rw [if_neg hes, List.append_nil] at hne
            obtain ⟨kv, hkvM, hks⟩ := (hmem s).mpr hne
            exact ⟨kv, List.mem_append_left _ hkvM, hks⟩

lemma countP_key_eq_one (M : List (List Char × StockPosition)) (s : List Char)
    (hnd : (M.map Prod.fst).Nodup) (hmem : ∃ kv ∈ M, kv.1 = s) :
    M.countP (fun kv => kv.1 == s) = 1 := by
  induction M with
  | nil => simp at hmem
  | cons kv M ih =>
    simp only [List.map_cons, List.nodup_cons] at hnd
    obtain ⟨hhead, hnd'⟩ := hnd
    by_cases hk : kv.1 = s
    · have hz : M.countP (fun kv => kv.1 == s) = 0 := by
        rw [List.countP_eq_zero]
        intro kv' hkv' hp
        have hk' : kv'.1 = s := by simpa using hp
        refine hhead ?_
        rw [hk, ← hk']
        exact List.mem_map_of_mem _ hkv'
      simp [List.countP_cons, hz, hk]
    · rcases hmem with ⟨kv', hkv', hks⟩
      rcases List.mem_cons.mp hkv' with h1 | h1
      · subst h1
        exact absurd hks hk
      · have := ih hnd' ⟨kv', h1, hks⟩
        simp [List.countP_cons, this, hk]

/-! ## Claim C7: duplicate symbols aggregate into one weighted position -/

/-- C7: when the valid rows for a symbol are exactly two lots `(q1, c1)` and
`(q2, c2)`, the import produces exactly one position for that symbol, with
`q1 + q2` shares and average cost `(q1*c1 + q2*c2) / (q1 + q2)`
(`src/unnamed/part_001` lines 87-132). -/
theorem import_two_rows_same_symbol (rows : List (List Cell))
    (s : List Char) (q1 c1 q2 c2 : ℚ)
    (h : symEntries s (validEntries rows) = [(s, q1, c1), (s, q2, c2)]) :
    ((handleFileUpload rows).1.countP fun p => p.symbol == s) = 1 ∧
    ∀ p ∈ (handleFileUpload rows).1, p.symbol = s →
      p.shares = q1 + q2 ∧ p.avgBuyPrice = (q1 * c1 + q2 * c2) / (q1 + q2) := by
  have hmem1 : ((s, q1, c1) : List Char × ℚ × ℚ) ∈ validEntries rows := by
    have hx : ((s, q1, c1) : List Char × ℚ × ℚ)
        ∈ symEntries s (validEntries rows) := by
      rw [h]; simp
    exact (List.mem_filter.mp hx).1
  have hmem2 : ((s, q2, c2) : List Char × ℚ × ℚ) ∈ validEntries rows := by
    have hx : ((s, q2, c2) : List Char × ℚ × ℚ)
        ∈ symEntries s (validEntries rows) := by
      rw [h]; simp
    exact (List.mem_filter.mp hx).1
  have hq1 : 0 < q1 := validEntries_pos rows _ hmem1
  have hq2 : 0 < q2 := validEntries_pos rows _ hmem2
  obtain ⟨hnd, hvals, hmemkeys⟩ :=
    aggFold_invariant (validEntries rows) (validEntries_pos rows)
  rw [handleFileUpload_eq]
  constructor
  · -- exactly one position carries the symbol
    show ((((validEntries rows).foldl aggStep []).map (·.2)).countP
        fun p => p.symbol == s) = 1
    rw [List.countP_map]
    have hcong : ((validEntries rows).foldl aggStep []).countP
          ((fun p => p.symbol == s) ∘ (·.2))
        = ((validEntries rows).foldl aggStep []).countP (fun kv => kv.1 == s) := by
      refine List.countP_congr ?_
      intro kv hkv
      obtain ⟨hsym, -, -, -⟩ := hvals kv hkv
      simp [Function.comp, hsym]
    rw [hcong]
    have hne : symEntries s (validEntries rows) ≠ [] := by
      rw [h]; simp
    exact countP_key_eq_one _ s hnd ((hmemkeys s).mpr hne)
  · -- and it carries the summed shares and the weighted average
    intro p hp hpsym
    rcases List.mem_map.mp hp with ⟨kv, hkvM, hkveq⟩
    obtain ⟨hsym, hsh, hcost, hppos⟩ := hvals kv hkvM
    have hk : kv.1 = s := by
      rw [← hsym, hkveq, hpsym]
    rw [hk] at hsh hcost
    rw [h] at hsh hcost
    have hshares : p.shares = q1 + q2 := by
      rw [← hkveq, hsh]
      simp [sumShares]
    refine ⟨hshares, ?_⟩
    have hcost' : p.shares * p.avgBuyPrice = q1 * c1 + q2 * c2 := by
      rw [← hkveq] at *
      rw [hcost]
      simp [sumCost]
    have hne : q1 + q2 ≠ 0 := by linarith
    rw [eq_div_iff hne, ← hcost', hshares]
    ring

/-- Witness for C7: the spec's example, 10 shares at 100 and 10 shares at 200
for the same symbol, gives one position with 20 shares at average cost 150. -/
theorem import_two_rows_same_symbol_witness :
    ((handleFileUpload
        [[⟨"SYM".data, none⟩, ⟨"10".data, some 10⟩, ⟨"100".data, some 100⟩],
         [⟨"SYM".data, none⟩, ⟨"10".data, some 10⟩, ⟨"200".data, some 200⟩]]).1.countP
      fun p => p.symbol == "SYM".data) = 1 ∧
    ∀ p ∈ (handleFileUpload
        [[⟨"SYM".data, none⟩, ⟨"10".data, some 10⟩, ⟨"100".data, some 100⟩],
         [⟨"SYM".data, none⟩, ⟨"10".data, some 10⟩, ⟨"200".data, some 200⟩]]).1,
      p.symbol = "SYM".data →
      p.shares = 10 + 10 ∧ p.avgBuyPrice = (10 * 100 + 10 * 200) / (10 + 10) :=
  import_two_rows_same_symbol _ "SYM".data 10 100 10 200 (by decide)

/-! ## Claim C8: invalid rows contribute nothing to the import -/

/-- C8: a row whose quantity or cost column is non-numeric, or whose quantity
is not positive, leaves the aggregated import (positions and imported count)
exactly as if the row were absent (`src/unnamed/part_001` lines 90-130). -/
theorem invalid_row_contributes_nothing (pre post : List (List Cell))
    (r : List Cell)
    (hbad : (getCell r 1).num = none ∨ (getCell r 2).num = none ∨
      ∃ q, (getCell r 1).num = some q ∧ q ≤ 0) :
    handleFileUpload (pre ++ r :: post) = handleFileUpload (pre ++ post) := by
  have hre : rowEntry r = none := by
    unfold rowEntry
    by_cases hlen : r.length < 3
    · simp [hlen]
    · rw [if_neg hlen]
      rcases hq : (getCell r 1).num with _ | q
      · rcases hc : (getCell r 2).num with _ | c <;> rfl
      · rcases hc : (getCell r 2).num with _ | c
        · rfl
        · rcases hbad with hb | hb | ⟨q', hq', hq0⟩
          · rw [hq] at hb
            cases hb
          · rw [hc] at hb
            cases hb
          · rw [hq] at hq'
            injection hq' with hqq
            subst hqq
            show (if rowSymbol r ≠ [] ∧ 0 < q then some (rowSymbol r, q, c)
              else none) = none
            rw [if_neg]
            rintro ⟨-, hlt⟩
            exact absurd hlt (not_lt.mpr hq0)
  have hv : validEntries (pre ++ r :: post) = validEntries (pre ++ post) := by
    unfold validEntries
    simp [List.filterMap_append, List.filterMap_cons, hre]
  rw [handleFileUpload_eq, handleFileUpload_eq, hv]

/-- Witness for C8: a row with a non-numeric quantity cell is dropped. -/
theorem invalid_row_contributes_nothing_witness :
    handleFileUpload
        [[⟨"A".data, none⟩, ⟨"x".data, none⟩, ⟨"1".data, some 1⟩]]
      = handleFileUpload [] :=
  invalid_row_contributes_nothing [] []
    [⟨"A".data, none⟩, ⟨"x".data, none⟩, ⟨"1".data, some 1⟩]
    (Or.inl rfl)

end PsxLedger
